import Mathlib

/-!
Shallow embedding of the Huffman coding program in
`src/Theory Assignment 03/Assignment.cpp` (the file `Main.cpp` is the same
program fully commented out).  `std::string` is modelled as `List Char`,
the hand-rolled frequency linked list as a `List (Char × Nat)` of
(Character, freq) entries in list order, and `std::unordered_map<char,string>`
as an association list with first-match lookup and update-or-append writes
(observationally equal to the map, which is only read through single-key
lookups).  Crashing executions (null-pointer dereferences, which the C++
code can reach in `decode`) are modelled by `Option`, `none` meaning the
undefined behaviour was reached.
-/

/-- A bit-string / character string (`std::string` in the source). -/
abbrev Str := List Char

/-- C++ `struct HuffmanNode { char Character; int freq; HuffmanNode *left, *right; }`.
The program creates nodes only through `HuffmanNode(char,int)` (both children
null) and the merge step of `buildTree` (both children set), so every node
reachable in the program is either a leaf or has exactly two children; the
embedding therefore uses a two-constructor tree. -/
inductive HuffmanNode : Type where
  | leaf (Character : Char) (freq : Nat)
  | internal (Character : Char) (freq : Nat) (left : HuffmanNode) (right : HuffmanNode)
deriving DecidableEq

/-- The `freq` field. -/
def HuffmanNode.freq : HuffmanNode → Nat
  | .leaf _ f => f
  | .internal _ f _ _ => f

/-- The `Character` field. -/
def HuffmanNode.Character : HuffmanNode → Char
  | .leaf c _ => c
  | .internal c _ _ _ => c

/-- Default node used to totalise list indexing (C++ vector indexing is
unchecked; all call sites stay in bounds). -/
def dummyNode : HuffmanNode := .leaf (Char.ofNat 0) 0

/-- Reads `queue[i]` on the heap vector. -/
def nth (q : List HuffmanNode) (i : Nat) : HuffmanNode := q.getD i dummyNode

/-- Models `std::swap(queue[i], queue[j])`. -/
def listSwap (q : List HuffmanNode) (i j : Nat) : List HuffmanNode :=
  (q.set i (nth q j)).set j (nth q i)

/-- C++ `PriorityQueue::heapifyUp` (the while-loop).  `fuel` bounds the number
of loop iterations; `index` strictly decreases at each iteration, so any
`fuel > index` makes the embedding agree with the C++ loop (call sites pass
the queue length). -/
def PriorityQueue.heapifyUp (fuel : Nat) (q : List HuffmanNode) (index : Nat) :
    List HuffmanNode :=
  match fuel with
  | 0 => q
  | fuel + 1 =>
    if 0 < index then
      let parent := (index - 1) / 2
      if (nth q index).freq < (nth q parent).freq then
        PriorityQueue.heapifyUp fuel (listSwap q index parent) parent
      else q
    else q

/-- C++ `PriorityQueue::heapifyDown` (recursive).  `fuel` bounds the recursion
depth; the index strictly increases and stays below the length, so any
`fuel ≥ q.length - index` makes the embedding agree with the C++ recursion
(call sites pass the queue length). -/
def PriorityQueue.heapifyDown (fuel : Nat) (q : List HuffmanNode) (index : Nat) :
    List HuffmanNode :=
  match fuel with
  | 0 => q
  | fuel + 1 =>
    let lc := 2 * index + 1
    let rc := 2 * index + 2
    let s1 := if lc < q.length ∧ (nth q lc).freq < (nth q index).freq then lc else index
    let s2 := if rc < q.length ∧ (nth q rc).freq < (nth q s1).freq then rc else s1
    if s2 ≠ index then PriorityQueue.heapifyDown fuel (listSwap q index s2) s2
    else q

/-- C++ `PriorityQueue::push`: `push_back` then `heapifyUp(queue.size() - 1)`. -/
def PriorityQueue.push (q : List HuffmanNode) (node : HuffmanNode) : List HuffmanNode :=
  PriorityQueue.heapifyUp (q.length + 1) (q ++ [node]) ((q ++ [node]).length - 1)

/-- C++ `PriorityQueue::pop`: returns `nullptr` (here `none`) on the empty
queue; otherwise saves `queue[0]`, overwrites it with `queue.back()`,
`pop_back`s, sifts down from the root, and returns the saved root together
with the remaining queue. -/
def PriorityQueue.pop (q : List HuffmanNode) : Option (HuffmanNode × List HuffmanNode) :=
  match q with
  | [] => none
  | a :: rest =>
    let q' := (((a :: rest).set 0 (nth (a :: rest) ((a :: rest).length - 1)))).dropLast
    some (a, PriorityQueue.heapifyDown q'.length q' 0)

/-- Outcome of `FrequencyTable::MakeTable` (which reports by printing). -/
inductive MakeTableOutcome : Type where
  | ok
  | emptyInput
  | alreadyPopulated
deriving DecidableEq

/-- One step of the counting loop body of `FrequencyTable::MakeTable`: walk the
list, increment the first node holding `c` (and stop), otherwise append a new
`(c, 1)` node at the tail. -/
def FrequencyTable.bump : List (Char × Nat) → Char → List (Char × Nat)
  | [], c => [(c, 1)]
  | (c', f) :: rest, c =>
    if c' = c then (c', f + 1) :: rest else (c', f) :: FrequencyTable.bump rest c

/-- C++ `FrequencyTable::MakeTable`, acting on the state `(head, huffmanString)`:
if the list is already populated it prints "Table is already populated!" and
changes nothing; if the string is empty it prints "Error! Huffman String is
Empty!" and changes nothing; otherwise it counts every character of the
string into the list. -/
def FrequencyTable.MakeTable (head : List (Char × Nat)) (huffmanString : Str) :
    List (Char × Nat) × MakeTableOutcome :=
  if head.isEmpty then
    if huffmanString.isEmpty then (head, .emptyInput)
    else (huffmanString.foldl FrequencyTable.bump head, .ok)
  else (head, .alreadyPopulated)

/-- Models `codes[c] = s` on the `unordered_map`: overwrite the entry for `c` if
present, otherwise add one. -/
def mapInsert : List (Char × Str) → Char → Str → List (Char × Str)
  | [], c, s => [(c, s)]
  | (c', s') :: rest, c, s =>
    if c' = c then (c', s) :: rest else (c', s') :: mapInsert rest c s

/-- Lookup in the `unordered_map`. -/
def mapFind : List (Char × Str) → Char → Option Str
  | [], _ => none
  | (c', s) :: rest, c => if c' = c then some s else mapFind rest c

/-- Models `codes[c]` as an rvalue: `unordered_map::operator[]` returns the mapped
value, default-inserting an empty string when the key is absent. -/
def mapIndex (codes : List (Char × Str)) (c : Char) : Str × List (Char × Str) :=
  match mapFind codes c with
  | some s => (s, codes)
  | none => ([], codes ++ [(c, [])])

/-- C++ `HuffmanTree::buildCodes`: depth-first walk recording `code` at every
node with two null children (a leaf); the two recursive calls on a leaf's null
children return immediately. -/
def HuffmanTree.buildCodes : HuffmanNode → Str → List (Char × Str) → List (Char × Str)
  | .leaf c _, code, codes => mapInsert codes c code
  | .internal _ _ l r, code, codes =>
    HuffmanTree.buildCodes r (code ++ ['1']) (HuffmanTree.buildCodes l (code ++ ['0']) codes)

/-- C++ `HuffmanTree::generateCodes` (root may be null, giving an empty map). -/
def HuffmanTree.generateCodes (root : Option HuffmanNode) : List (Char × Str) :=
  match root with
  | none => []
  | some t => HuffmanTree.buildCodes t [] []

/-- C++ `HuffmanTree::encodeString`: `encodedString += codes[c]` for each input
character; `operator[]` may mutate `codes`, so the pair (output, final map) is
returned. -/
def HuffmanTree.encodeString (input : Str) (codes : List (Char × Str)) :
    Str × List (Char × Str) :=
  input.foldl (fun acc c =>
    let r := mapIndex acc.2 c
    (acc.1 ++ r.1, r.2)) ([], codes)

/-- C++ `HuffmanTree::encode`: clear the accumulator, then `encodeString`. -/
def HuffmanTree.encode (input : Str) (codes : List (Char × Str)) :
    Str × List (Char × Str) :=
  HuffmanTree.encodeString input codes

/-- The loop body of C++ `HuffmanTree::decode`.  `current` moves to the left
child on `'0'` and to the right child on any other character; when the node
arrived at has two null children its character is emitted and the cursor
resets to the root.  When `current` is a leaf at the start of an iteration the
C++ code dereferences a null child (`current->left` of `nullptr`): modelled as
`none`. -/
def HuffmanTree.decodeGo (root : HuffmanNode) : HuffmanNode → Str → Option Str
  | _, [] => some []
  | current, bit :: rest =>
    match current with
    | .leaf _ _ => none
    | .internal _ _ l r =>
      match (if bit = '0' then l else r) with
      | .leaf c _ => (HuffmanTree.decodeGo root root rest).map (fun s => c :: s)
      | .internal c2 f2 l2 r2 => HuffmanTree.decodeGo root (.internal c2 f2 l2 r2) rest

/-- C++ `HuffmanTree::decode`: walk from `root`.  A null root with a non-empty
bit-string dereferences null immediately (`none`); a null root with an empty
bit-string returns the empty string. -/
def HuffmanTree.decode (root : Option HuffmanNode) (encoded : Str) : Option Str :=
  match root with
  | none => match encoded with
    | [] => some []
    | _ :: _ => none
  | some t => HuffmanTree.decodeGo t t encoded

/-- The merge loop of C++ `HuffmanTree::buildTree`: while more than one node
remains, pop two, merge into an internal `'\0'` node carrying the weight sum,
push the merge back.  Each iteration shrinks the queue by one, so `fuel ≥
q.length` makes the embedding agree with the C++ loop. -/
def HuffmanTree.buildLoop (fuel : Nat) (q : List HuffmanNode) : List HuffmanNode :=
  match fuel with
  | 0 => q
  | fuel + 1 =>
    if 1 < q.length then
      match PriorityQueue.pop q with
      | none => q
      | some (l, q1) =>
        match PriorityQueue.pop q1 with
        | none => q1
        | some (r, q2) =>
          HuffmanTree.buildLoop fuel
            (PriorityQueue.push q2 (.internal (Char.ofNat 0) (l.freq + r.freq) l r))
    else q

/-- C++ `HuffmanTree::buildTree`: push one leaf per frequency entry in list
order, run the merge loop, and pop the remaining node as the root (`none` =
null root, which happens exactly on an empty table). -/
def HuffmanTree.buildTree (table : List (Char × Nat)) : Option HuffmanNode :=
  let q := table.foldl (fun acc e => PriorityQueue.push acc (.leaf e.1 e.2)) []
  (PriorityQueue.pop (HuffmanTree.buildLoop q.length q)).map (fun p => p.1)

/-- Push a list of nodes into an (initially empty) priority queue, in order:
the scenario of §4.2/§4.3 of the spec.  (This is how `buildTree` seeds its
queue.) -/
def pushAll (l : List HuffmanNode) : List HuffmanNode :=
  l.foldl PriorityQueue.push []

/-- Repeatedly `pop` until the queue is empty, collecting the extraction
order (the "successive `extract_min` calls" scenario of the spec). -/
def popAllGo (fuel : Nat) (q : List HuffmanNode) : List HuffmanNode :=
  match fuel with
  | 0 => []
  | fuel + 1 =>
    match PriorityQueue.pop q with
    | none => []
    | some (a, q') => a :: popAllGo fuel q'

/-- Extraction order of a queue, by repeated `pop`. -/
def popAll (q : List HuffmanNode) : List HuffmanNode := popAllGo q.length q

/-- Relabel every `Character` field, keeping weights and shape: used to state
that the queue's behaviour never depends on symbol identity. -/
def mapSym (f : Char → Char) : HuffmanNode → HuffmanNode
  | .leaf c w => .leaf (f c) w
  | .internal c w l r => .internal (f c) w (mapSym f l) (mapSym f r)

/-- Weight conservation (§8 of the spec): every internal node's weight is the
sum of its children's weights. -/
def weightOk : HuffmanNode → Bool
  | .leaf _ _ => true
  | .internal _ f l r => f == l.freq + r.freq && weightOk l && weightOk r

/-- Total weight held in a queue. -/
def sumFreq (q : List HuffmanNode) : Nat := (q.map HuffmanNode.freq).sum

/-- The binary min-heap invariant of the `queue` vector: every element is at
least its parent. -/
def isHeap (q : List HuffmanNode) : Prop :=
  ∀ j, j < q.length → 0 < j → (nth q ((j - 1) / 2)).freq ≤ (nth q j).freq

/-- The heap invariant is decidable (needed to check concrete queues). -/
instance (q : List HuffmanNode) : Decidable (isHeap q) := by
  unfold isHeap
  infer_instance

/-- Heap invariant everywhere except at the two edges leaving `i`, plus: if
`i` has a parent, that parent is at most each child of `i`.  This is the
state of the queue handed to `heapifyDown i`. -/
def almostHeapAt (q : List HuffmanNode) (i : Nat) : Prop :=
  (∀ j, j < q.length → 0 < j → (j - 1) / 2 ≠ i →
    (nth q ((j - 1) / 2)).freq ≤ (nth q j).freq) ∧
  (∀ j, j < q.length → 0 < j → (j - 1) / 2 = i → 0 < i →
    (nth q ((i - 1) / 2)).freq ≤ (nth q j).freq)

/-- The leaf/path pairs of a tree in depth-first order, left first ('0'),
right second ('1'): the sequence of writes `buildCodes` performs. -/
def pathsFrom : HuffmanNode → Str → List (Char × Str)
  | .leaf c _, code => [(c, code)]
  | .internal _ _ l r, code =>
    pathsFrom l (code ++ ['0']) ++ pathsFrom r (code ++ ['1'])

/-- What `encode` actually produces, phrased against the ORIGINAL code table:
each input symbol contributes its code when present and nothing at all when
absent (used for the amended form of the symbol-not-in-table claim). -/
def expectedEncode (codes : List (Char × Str)) : Str → Str
  | [] => []
  | c :: rest => (mapFind codes c).getD [] ++ expectedEncode codes rest

/-- The full `case 1` flow of `main` on a fresh `FrequencyTable` and
`HuffmanTree`: make the table, build the tree, generate codes, encode the
input against them, decode the result against the same tree. -/
def pipeline (myString : Str) : Option Str :=
  let table := (FrequencyTable.MakeTable [] myString).1
  let root := HuffmanTree.buildTree table
  let codes := HuffmanTree.generateCodes root
  let encoded := (HuffmanTree.encode myString codes).1
  HuffmanTree.decode root encoded

/-! ## Claim theorems settled by direct evaluation -/

/-- C1 (failing-input evaluation): the full pipeline on the single-character
input "a" returns the empty string, not "a": the singleton tree is a lone
leaf, `buildCodes` assigns it the empty code, so encoding yields the empty
bit-string and decoding yields the empty string.  The round-trip claim fails
here (and `main`'s own comparison prints an error on such inputs). -/
theorem pipeline_loses_singleton_input :
    pipeline ['a'] = some [] ∧ pipeline ['a'] ≠ some ['a'] := by
  constructor
  · rfl
  · decide

/-- C2 (failing-input evaluation): on input "aaaa" the frequency table is
{a ↦ 4} and the tree is the single leaf ('a', 4) as the claim states, but the
code table maps 'a' to the EMPTY code (not a one-bit code), the encoded
string is "" (not "0000"), and decoding returns "" (not "aaaa"). -/
theorem singleton_alphabet_gets_empty_code :
    FrequencyTable.MakeTable [] ['a', 'a', 'a', 'a'] = ([('a', 4)], .ok) ∧
    HuffmanTree.buildTree [('a', 4)] = some (.leaf 'a' 4) ∧
    HuffmanTree.generateCodes (some (.leaf 'a' 4)) = [('a', [])] ∧
    (HuffmanTree.encode ['a', 'a', 'a', 'a'] [('a', [])]).1 = [] ∧
    HuffmanTree.decode (some (.leaf 'a' 4)) [] = some [] := by
  refine ⟨by decide, by decide, by decide, by decide, by decide⟩

/-- C7 (counterexample): decoding a corrupted stream does not fail.  The tree
built from table {a ↦ 1, b ↦ 1} encodes "ab" as "01"; appending a trailing
'0' gives "010", and `decode` returns the symbol sequence "aba" (the trailing
'0' walks to the left leaf and emits a spurious 'a') instead of failing with
`IncompleteCodeword`. -/
theorem decode_trailing_zero_returns_symbols :
    (HuffmanTree.encode ['a', 'b']
      (HuffmanTree.generateCodes (HuffmanTree.buildTree [('a', 1), ('b', 1)]))).1
      = ['0', '1'] ∧
    HuffmanTree.decode (HuffmanTree.buildTree [('a', 1), ('b', 1)])
      (['0', '1'] ++ ['0']) = some ['a', 'b', 'a'] ∧
    some ['a', 'b', 'a'] ≠ (none : Option Str) := by
  refine ⟨by decide, by decide, by decide⟩

/-- C6 (counterexample): extraction order among equal weights is not FIFO.
Three equal-weight nodes inserted in the order a, b, c are extracted in the
order a, c, b (after the first pop, the last element c is moved to the root
and b does not displace it because the sift-down comparison is strict). -/
theorem popAll_equal_weights_not_fifo :
    (popAll (pushAll [.leaf 'a' 1, .leaf 'b' 1, .leaf 'c' 1])).map
      HuffmanNode.Character = ['a', 'c', 'b'] ∧
    (['a', 'c', 'b'] : List Char) ≠ ['a', 'b', 'c'] := by
  refine ⟨by decide, by decide⟩

/-- C9 (counterexample): encoding an input containing a symbol absent from
the code table does not fail.  With table {a ↦ "0", b ↦ "1"} the input "abc"
encodes to the bit-string "01": the missing 'c' contributes nothing, and
`operator[]` silently inserts the entry ('c', "") into the table. -/
theorem encode_missing_symbol_no_failure :
    HuffmanTree.encode ['a', 'b', 'c'] [('a', ['0']), ('b', ['1'])] =
      (['0', '1'], [('a', ['0']), ('b', ['1']), ('c', [])]) := by
  decide

/-- C8: `MakeTable` on a fresh table and the empty input string reports the
empty-input error ("Error! Huffman String is Empty!", the spec's
`EmptyInput`) and creates no frequency entries at all. -/
theorem MakeTable_empty_input :
    FrequencyTable.MakeTable [] [] = ([], .emptyInput) ∧
    MakeTableOutcome.emptyInput ≠ .ok := by
  exact ⟨rfl, by decide⟩

/-- C10: once the table is populated (`head ≠ []`), any further `MakeTable`
call — whatever string has been set in the meantime — reports "Table is
already populated!" and returns the entry list unchanged, in the same order,
with nothing added. -/
theorem MakeTable_already_populated (head : List (Char × Nat)) (s : Str)
    (h : head ≠ []) :
    FrequencyTable.MakeTable head s = (head, .alreadyPopulated) := by
  cases head with
  | nil => exact absurd rfl h
  | cons a t => simp [FrequencyTable.MakeTable]

/-- Witness for C10 at a concrete populated table and a new string. -/
theorem MakeTable_already_populated_witness :
    FrequencyTable.MakeTable [('a', 2)] ['x', 'y'] = ([('a', 2)], .alreadyPopulated) :=
  MakeTable_already_populated [('a', 2)] ['x', 'y'] (by decide)

/-! ## Indexing, length and permutation facts about the queue operations -/

/-- In-bounds `nth` is ordinary indexing. -/
theorem nth_eq_getElem (q : List HuffmanNode) (i : Nat) (h : i < q.length) :
    nth q i = q[i] := List.getD_eq_getElem q dummyNode h

/-- In-bounds `nth` is a member of the list. -/
theorem nth_mem (q : List HuffmanNode) (i : Nat) (h : i < q.length) : nth q i ∈ q := by
  rw [nth_eq_getElem q i h]; exact List.getElem_mem h

/-- Swapping preserves length. -/
theorem listSwap_length (q : List HuffmanNode) (i j : Nat) :
    (listSwap q i j).length = q.length := by
  simp [listSwap]

/-- The first swapped position now holds the second's value. -/
theorem nth_listSwap_fst (q : List HuffmanNode) (i j : Nat) (hi : i < q.length)
    (hj : j < q.length) : nth (listSwap q i j) i = nth q j := by
  by_cases hij : i = j
  · subst hij
    rw [listSwap, nth_eq_getElem _ _ (by simpa using hi), List.getElem_set_self]
  · rw [listSwap, nth_eq_getElem _ _ (by simpa using hi),
      List.getElem_set_ne (Ne.symm hij), List.getElem_set_self]

/-- The second swapped position now holds the first's value. -/
theorem nth_listSwap_snd (q : List HuffmanNode) (i j : Nat) (_hi : i < q.length)
    (hj : j < q.length) : nth (listSwap q i j) j = nth q i := by
  rw [listSwap, nth_eq_getElem _ _ (by simpa using hj), List.getElem_set_self]

/-- Positions other than the two swapped ones are unchanged. -/
theorem nth_listSwap_other (q : List HuffmanNode) (i j k : Nat) (hk : k < q.length)
    (hki : k ≠ i) (hkj : k ≠ j) : nth (listSwap q i j) k = nth q k := by
  rw [listSwap, nth_eq_getElem _ _ (by simpa using hk),
    List.getElem_set_ne (Ne.symm hkj), List.getElem_set_ne (Ne.symm hki),
    nth_eq_getElem _ _ hk]

/-- Count at a read position never exceeds the total count. -/
theorem count_getElem_le (q : List HuffmanNode) (i : Nat) (h : i < q.length)
    (x : HuffmanNode) :
    (if q[i] = x then 1 else 0) ≤ List.count x q := by
  by_cases hx : q[i] = x
  · simp only [hx, if_pos]
    exact List.count_pos_iff.mpr (hx ▸ List.getElem_mem h)
  · simp [hx]

/-- Swapping two in-bounds positions permutes the list. -/
theorem listSwap_perm (q : List HuffmanNode) (i j : Nat) (hi : i < q.length)
    (hj : j < q.length) : (listSwap q i j).Perm q := by
  rw [List.perm_iff_count]
  intro x
  by_cases hij : i = j
  · subst hij
    rw [listSwap, List.set_set, List.count_set _ _ _ _ hi]
    have h1 := count_getElem_le q i hi x
    simp only [nth_eq_getElem q i hi, beq_iff_eq]
    by_cases e1 : q[i] = x
    · rw [if_pos e1] at h1
      simp [e1]
      omega
    · simp [e1]
  · have hj2 : j < (q.set i (nth q j)).length := by simpa using hj
    rw [listSwap, List.count_set _ _ _ _ hj2, List.count_set _ _ _ _ hi,
      List.getElem_set_ne hij]
    have h1 := count_getElem_le q i hi x
    have h2 := count_getElem_le q j hj x
    simp only [nth_eq_getElem q i hi, nth_eq_getElem q j hj, beq_iff_eq]
    by_cases e1 : q[i] = x
    · rw [if_pos e1] at h1
      by_cases e2 : q[j] = x
      · rw [if_pos e2] at h2
        simp [e1, e2]
        omega
      · simp [e1, e2]
        omega
    · rw [if_neg e1] at h1
      by_cases e2 : q[j] = x
      · rw [if_pos e2] at h2
        simp [e1, e2]
      · simp [e1, e2]

/-- One step of `heapifyUp` when the element is smaller than its parent. -/
theorem heapifyUp_succ_swap (fuel : Nat) (q : List HuffmanNode) (index : Nat)
    (hpos : 0 < index)
    (hlt : (nth q index).freq < (nth q ((index - 1) / 2)).freq) :
    PriorityQueue.heapifyUp (fuel + 1) q index =
      PriorityQueue.heapifyUp fuel (listSwap q index ((index - 1) / 2)) ((index - 1) / 2) := by
  simp only [PriorityQueue.heapifyUp]
  rw [if_pos hpos, if_pos hlt]

/-- One step of `heapifyUp` when it stops (at the root, or no inversion). -/
theorem heapifyUp_succ_stop (fuel : Nat) (q : List HuffmanNode) (index : Nat)
    (h : ¬0 < index ∨ ¬(nth q index).freq < (nth q ((index - 1) / 2)).freq) :
    PriorityQueue.heapifyUp (fuel + 1) q index = q := by
  simp only [PriorityQueue.heapifyUp]
  rcases h with h | h
  · rw [if_neg h]
  · by_cases hpos : 0 < index
    · rw [if_pos hpos, if_neg h]
    · rw [if_neg hpos]

/-- Sift-up preserves length. -/
theorem heapifyUp_length (fuel : Nat) : ∀ q index,
    (PriorityQueue.heapifyUp fuel q index).length = q.length := by
  induction fuel with
  | zero => intro q index; rfl
  | succ fuel ih =>
    intro q index
    by_cases hpos : 0 < index
    · by_cases hlt : (nth q index).freq < (nth q ((index - 1) / 2)).freq
      · rw [heapifyUp_succ_swap fuel q index hpos hlt, ih, listSwap_length]
      · rw [heapifyUp_succ_stop fuel q index (Or.inr hlt)]
    · rw [heapifyUp_succ_stop fuel q index (Or.inl hpos)]

/-- Sift-up from an in-bounds index permutes the queue. -/
theorem heapifyUp_perm (fuel : Nat) : ∀ q index, index < q.length →
    (PriorityQueue.heapifyUp fuel q index).Perm q := by
  induction fuel with
  | zero => intro q index _; exact List.Perm.refl q
  | succ fuel ih =>
    intro q index hidx
    by_cases hpos : 0 < index
    · by_cases hlt : (nth q index).freq < (nth q ((index - 1) / 2)).freq
      · have hpar : (index - 1) / 2 < q.length := by omega
        rw [heapifyUp_succ_swap fuel q index hpos hlt]
        exact (ih _ _ (by rw [listSwap_length]; omega)).trans
          (listSwap_perm q index _ hidx hpar)
      · rw [heapifyUp_succ_stop fuel q index (Or.inr hlt)]
    · rw [heapifyUp_succ_stop fuel q index (Or.inl hpos)]

/-- Case analysis on one step of `heapifyDown`: either no child is strictly
smaller (the recursion stops, with `index`'s value at most each in-range
child's), or the chosen child `s2` is in range, holds a value strictly below
`index`'s, is at most the sibling where present, and the function swaps and
recurses at `s2`. -/
theorem heapifyDown_succ_cases (fuel : Nat) (q : List HuffmanNode) (index : Nat) :
    (PriorityQueue.heapifyDown (fuel + 1) q index = q ∧
      ∀ t, (t = 2 * index + 1 ∨ t = 2 * index + 2) → t < q.length →
        (nth q index).freq ≤ (nth q t).freq) ∨
    (∃ s2, PriorityQueue.heapifyDown (fuel + 1) q index =
        PriorityQueue.heapifyDown fuel (listSwap q index s2) s2 ∧
      index < s2 ∧ s2 < q.length ∧ (s2 = 2 * index + 1 ∨ s2 = 2 * index + 2) ∧
      (nth q s2).freq < (nth q index).freq ∧
      ∀ t, (t = 2 * index + 1 ∨ t = 2 * index + 2) → t ≠ s2 → t < q.length →
        (nth q s2).freq ≤ (nth q t).freq) := by
  by_cases hL : 2 * index + 1 < q.length ∧ (nth q (2 * index + 1)).freq < (nth q index).freq
  · by_cases hR : 2 * index + 2 < q.length ∧
        (nth q (2 * index + 2)).freq < (nth q (2 * index + 1)).freq
    · refine Or.inr ⟨2 * index + 2, ?_, by omega, hR.1, Or.inr rfl,
        Nat.lt_trans hR.2 hL.2, ?_⟩
      · simp only [PriorityQueue.heapifyDown]
        rw [if_pos hL, if_pos hR, if_pos (show 2 * index + 2 ≠ index by omega)]
      · intro t ht htne htlt
        rcases ht with rfl | rfl
        · exact Nat.le_of_lt hR.2
        · exact absurd rfl htne
    · refine Or.inr ⟨2 * index + 1, ?_, by omega, hL.1, Or.inl rfl, hL.2, ?_⟩
      · simp only [PriorityQueue.heapifyDown]
        rw [if_pos hL, if_neg hR, if_pos (show 2 * index + 1 ≠ index by omega)]
      · intro t ht htne htlt
        rcases ht with rfl | rfl
        · exact absurd rfl htne
        · push_neg at hR
          exact hR htlt
  · by_cases hR : 2 * index + 2 < q.length ∧
        (nth q (2 * index + 2)).freq < (nth q index).freq
    · refine Or.inr ⟨2 * index + 2, ?_, by omega, hR.1, Or.inr rfl, hR.2, ?_⟩
      · simp only [PriorityQueue.heapifyDown]
        rw [if_neg hL, if_pos hR, if_pos (show 2 * index + 2 ≠ index by omega)]
      · intro t ht htne htlt
        rcases ht with rfl | rfl
        · push_neg at hL
          exact Nat.le_of_lt (Nat.lt_of_lt_of_le hR.2 (hL htlt))
        · exact absurd rfl htne
    · refine Or.inl ⟨?_, ?_⟩
      · simp only [PriorityQueue.heapifyDown]
        rw [if_neg hL, if_neg hR, if_neg (show ¬index ≠ index from fun h => h rfl)]
      · intro t ht htlt
        push_neg at hL hR
        rcases ht with rfl | rfl
        · exact hL htlt
        · exact hR htlt

/-- Sift-down preserves length. -/
theorem heapifyDown_length (fuel : Nat) : ∀ q index,
    (PriorityQueue.heapifyDown fuel q index).length = q.length := by
  induction fuel with
  | zero => intro q index; rfl
  | succ fuel ih =>
    intro q index
    rcases heapifyDown_succ_cases fuel q index with ⟨heq, -⟩ |
      ⟨s2, heq, -, -, -, -, -⟩
    · rw [heq]
    · rw [heq, ih, listSwap_length]

/-- Sift-down permutes the queue. -/
theorem heapifyDown_perm (fuel : Nat) : ∀ q index,
    (PriorityQueue.heapifyDown fuel q index).Perm q := by
  induction fuel with
  | zero => intro q index; exact List.Perm.refl q
  | succ fuel ih =>
    intro q index
    rcases heapifyDown_succ_cases fuel q index with ⟨heq, -⟩ |
      ⟨s2, heq, hlt, hlen, -, -, -⟩
    · rw [heq]
    · rw [heq]
      exact (ih _ _).trans (listSwap_perm q index s2 (by omega) hlen)

/-- Pushing adds exactly one element. -/
theorem push_length (q : List HuffmanNode) (n : HuffmanNode) :
    (PriorityQueue.push q n).length = q.length + 1 := by
  rw [PriorityQueue.push, heapifyUp_length]; simp

/-- Pushing makes the queue a permutation of the old queue plus the new node. -/
theorem push_perm (q : List HuffmanNode) (n : HuffmanNode) :
    (PriorityQueue.push q n).Perm (n :: q) := by
  rw [PriorityQueue.push]
  exact (heapifyUp_perm _ _ _ (by simp)).trans (List.perm_append_singleton n q)

/-- Popping a non-empty queue succeeds; the returned element consed onto the
remaining queue permutes the original queue. -/
theorem pop_perm (q : List HuffmanNode) (h : q ≠ []) :
    ∃ a q', PriorityQueue.pop q = some (a, q') ∧ (a :: q').Perm q := by
  match q with
  | a :: rest =>
    refine ⟨a, _, rfl, ?_⟩
    refine List.Perm.cons a ((heapifyDown_perm _ _ _).trans ?_)
    match rest with
    | [] => simp [nth]
    | b :: rest' =>
      have hne : b :: rest' ≠ [] := by simp
      have hlen : (a :: b :: rest').length - 1 = rest'.length + 1 := by simp
      have hlast : nth (a :: b :: rest') ((a :: b :: rest').length - 1)
          = (b :: rest').getLast hne := by
        rw [hlen, nth, List.getD_cons_succ, List.getLast_eq_getElem,
          ← nth_eq_getElem _ _ (by simp)]
        simp [nth]
      rw [hlast, List.set_cons_zero, List.dropLast_cons_of_ne_nil hne]
      have h2 : (b :: rest').dropLast ++ [(b :: rest').getLast hne] = b :: rest' :=
        List.dropLast_append_getLast hne
      have h1 := (List.perm_append_singleton ((b :: rest').getLast hne)
        ((b :: rest').dropLast)).symm
      rw [h2] at h1
      exact h1

/-! ## Weight conservation through tree building (C4) -/

/-- Permuting the queue preserves the total weight. -/
theorem sumFreq_perm {q q' : List HuffmanNode} (h : q.Perm q') :
    sumFreq q = sumFreq q' :=
  List.Perm.sum_eq (h.map HuffmanNode.freq)

/-- Weight of a cons queue. -/
theorem sumFreq_cons (a : HuffmanNode) (l : List HuffmanNode) :
    sumFreq (a :: l) = a.freq + sumFreq l := by
  simp [sumFreq]

/-- Field reduction for internal nodes. -/
theorem freq_internal (c : Char) (f : Nat) (l r : HuffmanNode) :
    (HuffmanNode.internal c f l r).freq = f := rfl

/-- The merge loop turns any non-empty queue of weight-correct trees into a
single weight-correct tree carrying the whole weight. -/
theorem buildLoop_spec (fuel : Nat) : ∀ q, 0 < q.length → q.length ≤ fuel + 1 →
    (∀ t ∈ q, weightOk t = true) →
    ∃ t, HuffmanTree.buildLoop fuel q = [t] ∧ weightOk t = true ∧
      t.freq = sumFreq q := by
  induction fuel with
  | zero =>
    intro q h0 h1 hwf
    have hone : q.length = 1 := by omega
    obtain ⟨t, rfl⟩ := List.length_eq_one.mp hone
    exact ⟨t, rfl, hwf t (by simp), by simp [sumFreq]⟩
  | succ fuel ih =>
    intro q h0 hlen hwf
    by_cases h1 : 1 < q.length
    · have hq : q ≠ [] := by
        intro h; rw [h] at h0; exact absurd h0 (by simp)
      obtain ⟨l, q1, hpop, hperm⟩ := pop_perm q hq
      have hlen1 : q1.length + 1 = q.length := by
        have := hperm.length_eq; simpa using this
      have hq1 : q1 ≠ [] := by
        intro h; rw [h] at hlen1; simp at hlen1; omega
      obtain ⟨r, q2, hpop2, hperm2⟩ := pop_perm q1 hq1
      have hlen2 : q2.length + 1 = q1.length := by
        have := hperm2.length_eq; simpa using this
      have hlmem : l ∈ q := hperm.mem_iff.mp (by simp)
      have hrmem : r ∈ q := hperm.mem_iff.mp
        (List.mem_cons_of_mem l (hperm2.mem_iff.mp (by simp)))
      have hwfm : weightOk (HuffmanNode.internal (Char.ofNat 0)
          (l.freq + r.freq) l r) = true := by
        simp [weightOk]
        exact ⟨hwf l hlmem, hwf r hrmem⟩
      have hQperm := push_perm q2 (HuffmanNode.internal (Char.ofNat 0)
        (l.freq + r.freq) l r)
      have hwfQ : ∀ t ∈ PriorityQueue.push q2 (HuffmanNode.internal (Char.ofNat 0)
          (l.freq + r.freq) l r), weightOk t = true := by
        intro t ht
        rcases List.mem_cons.mp (hQperm.mem_iff.mp ht) with rfl | h2
        · exact hwfm
        · exact hwf t (hperm.mem_iff.mp (List.mem_cons_of_mem l
            (hperm2.mem_iff.mp (List.mem_cons_of_mem r h2))))
      have hsumq : sumFreq q = l.freq + (r.freq + sumFreq q2) := by
        rw [← sumFreq_perm hperm, sumFreq_cons, ← sumFreq_perm hperm2,
          sumFreq_cons]
      have hsumQ : sumFreq (PriorityQueue.push q2 (HuffmanNode.internal
          (Char.ofNat 0) (l.freq + r.freq) l r)) = sumFreq q := by
        rw [sumFreq_perm hQperm, sumFreq_cons, freq_internal, hsumq]
        omega
      have hlQ : (PriorityQueue.push q2 (HuffmanNode.internal (Char.ofNat 0)
          (l.freq + r.freq) l r)).length = q.length - 1 := by
        rw [push_length]; omega
      obtain ⟨t, ht1, ht2, ht3⟩ := ih (PriorityQueue.push q2
        (HuffmanNode.internal (Char.ofNat 0) (l.freq + r.freq) l r))
        (by omega) (by omega) hwfQ
      refine ⟨t, ?_, ht2, ?_⟩
      · simp only [HuffmanTree.buildLoop]
        rw [if_pos h1]
        simp only [hpop, hpop2]
        exact ht1
      · rw [ht3, hsumQ]
    · have hone : q.length = 1 := by omega
      obtain ⟨t, rfl⟩ := List.length_eq_one.mp hone
      refine ⟨t, ?_, hwf t (by simp), by simp [sumFreq]⟩
      simp [HuffmanTree.buildLoop]

/-- Seeding the queue with one leaf per table entry (in order) permutes to the
plain list of leaves. -/
theorem foldl_push_leaves_perm (entries : List (Char × Nat)) : ∀ acc,
    (entries.foldl (fun acc e => PriorityQueue.push acc (.leaf e.1 e.2)) acc).Perm
      (acc ++ entries.map (fun e => HuffmanNode.leaf e.1 e.2)) := by
  induction entries with
  | nil => intro acc; simp
  | cons e es ih =>
    intro acc
    simp only [List.foldl_cons, List.map_cons]
    refine (ih _).trans ?_
    have h1 : (PriorityQueue.push acc (.leaf e.1 e.2)).Perm
        (acc ++ [HuffmanNode.leaf e.1 e.2]) :=
      (push_perm _ _).trans (List.perm_append_singleton _ _).symm
    refine (h1.append_right _).trans ?_
    rw [List.append_assoc, List.singleton_append]

/-- C4: on any non-empty frequency table, `buildTree` returns a tree in which
every internal node's weight is the sum of its two children's weights
(`weightOk`), and whose root weight is the sum of all counts in the table. -/
theorem buildTree_weight_conservation (table : List (Char × Nat)) (h : table ≠ []) :
    ∃ t, HuffmanTree.buildTree table = some t ∧ weightOk t = true ∧
      t.freq = (table.map (fun e => e.2)).sum := by
  have hperm0 := foldl_push_leaves_perm table []
  simp only [List.nil_append] at hperm0
  set q0 := table.foldl (fun acc e => PriorityQueue.push acc (.leaf e.1 e.2)) []
    with hq0
  have hlen0 : q0.length = table.length := by
    rw [hperm0.length_eq, List.length_map]
  have h0 : 0 < q0.length := by
    rw [hlen0]; exact List.length_pos.mpr h
  have hwf0 : ∀ t ∈ q0, weightOk t = true := by
    intro t ht
    obtain ⟨e, -, rfl⟩ := List.mem_map.mp (hperm0.mem_iff.mp ht)
    rfl
  have hsum0 : sumFreq q0 = (table.map (fun e => e.2)).sum := by
    rw [sumFreq_perm hperm0]
    simp only [sumFreq, List.map_map]
    rfl
  obtain ⟨t, ht1, ht2, ht3⟩ := buildLoop_spec q0.length q0 h0 (by omega) hwf0
  refine ⟨t, ?_, ht2, by rw [ht3, hsum0]⟩
  rw [HuffmanTree.buildTree, ← hq0, ht1]
  rfl

/-- Witness for C4 on the table built from "ab". -/
theorem buildTree_weight_conservation_witness :
    ∃ t, HuffmanTree.buildTree [('a', 1), ('b', 1)] = some t ∧
      weightOk t = true ∧
      t.freq = ([('a', 1), ('b', 1)].map (fun e => e.2)).sum :=
  buildTree_weight_conservation [('a', 1), ('b', 1)] (by decide)

/-! ## Extract-min correctness (C5) -/

/-- In a heap, the root holds a minimal weight. -/
theorem isHeap_root_le (q : List HuffmanNode) (h : isHeap q) :
    ∀ i, i < q.length → (nth q 0).freq ≤ (nth q i).freq := by
  intro i
  induction i using Nat.strong_induction_on with
  | _ i ih =>
    intro hi
    match i with
    | 0 => exact Nat.le_refl _
    | i + 1 =>
      exact Nat.le_trans (ih ((i + 1 - 1) / 2) (by omega) (by omega))
        (h (i + 1) hi (by omega))

/-- Sifting down from an almost-heap state restores the full heap invariant. -/
theorem heapifyDown_isHeap (fuel : Nat) : ∀ q i, q.length ≤ fuel + i →
    almostHeapAt q i → isHeap (PriorityQueue.heapifyDown fuel q i) := by
  induction fuel with
  | zero =>
    intro q i hfi hA
    show isHeap q
    intro j hj hj0
    exact hA.1 j hj hj0 (by omega)
  | succ fuel ih =>
    intro q i hfi hA
    rcases heapifyDown_succ_cases fuel q i with ⟨heq, hmin⟩ |
      ⟨s2, heq, hlt, hlen, hchild, hstrict, hsib⟩
    · rw [heq]
      intro j hj hj0
      by_cases hpj : (j - 1) / 2 = i
      · have hj2 : j = 2 * i + 1 ∨ j = 2 * i + 2 := by omega
        rw [hpj]
        exact hmin j hj2 hj
      · exact hA.1 j hj hj0 hpj
    · rw [heq]
      have hi : i < q.length := by omega
      have hpar_s2 : (s2 - 1) / 2 = i := by omega
      have hine : i ≠ s2 := by omega
      apply ih
      · rw [listSwap_length]; omega
      constructor
      · -- heap edges hold everywhere except possibly out of s2
        intro j hj hj0 hpj
        rw [listSwap_length] at hj
        by_cases hjs : j = s2
        · rw [hjs, hpar_s2, nth_listSwap_fst q i s2 hi hlen,
            nth_listSwap_snd q i s2 hi hlen]
          exact Nat.le_of_lt hstrict
        · by_cases hji : j = i
          · have h0i : 0 < i := by omega
            have hp : (i - 1) / 2 ≠ i := by omega
            have hps : (i - 1) / 2 ≠ s2 := by omega
            rw [hji, nth_listSwap_other q i s2 ((i - 1) / 2) (by omega) hp hps,
              nth_listSwap_fst q i s2 hi hlen]
            exact hA.2 s2 hlen (by omega) hpar_s2 h0i
          · by_cases hpi : (j - 1) / 2 = i
            · have hj2 : j = 2 * i + 1 ∨ j = 2 * i + 2 := by omega
              rw [hpi, nth_listSwap_fst q i s2 hi hlen,
                nth_listSwap_other q i s2 j hj hji hjs]
              exact hsib j hj2 hjs hj
            · rw [nth_listSwap_other q i s2 j hj hji hjs,
                nth_listSwap_other q i s2 ((j - 1) / 2) (by omega) hpi hpj]
              exact hA.1 j hj hj0 hpi
      · -- the parent of s2 (namely i) is at most each child of s2
        intro j hj hj0 hpj hs2pos
        rw [listSwap_length] at hj
        have hjne_i : j ≠ i := by omega
        have hjne_s2 : j ≠ s2 := by omega
        rw [hpar_s2, nth_listSwap_fst q i s2 hi hlen,
          nth_listSwap_other q i s2 j hj hjne_i hjne_s2, ← hpj]
        exact hA.1 j hj hj0 (by omega)

/-- The element `pop` returns is the queue's front. -/
theorem pop_head (q : List HuffmanNode) (a : HuffmanNode) (q' : List HuffmanNode)
    (hpop : PriorityQueue.pop q = some (a, q')) : a = nth q 0 := by
  match q with
  | [] => simp [PriorityQueue.pop] at hpop
  | b :: rest =>
    simp only [PriorityQueue.pop, Option.some.injEq, Prod.mk.injEq] at hpop
    rw [← hpop.1]
    rfl

/-- After popping a heap, the remaining queue is again a heap. -/
theorem pop_result_isHeap (q : List HuffmanNode) (hq : isHeap q) (a : HuffmanNode)
    (q' : List HuffmanNode) (hpop : PriorityQueue.pop q = some (a, q')) :
    isHeap q' := by
  match q with
  | [] => simp [PriorityQueue.pop] at hpop
  | b :: rest =>
    simp only [PriorityQueue.pop, Option.some.injEq, Prod.mk.injEq] at hpop
    obtain ⟨-, hq'⟩ := hpop
    subst hq'
    have hlen2 : (((b :: rest).set 0
        (nth (b :: rest) ((b :: rest).length - 1))).dropLast).length
        = rest.length := by
      simp
    apply heapifyDown_isHeap
    · omega
    constructor
    · intro j hj hj0 hpj
      have hp0 : 0 < (j - 1) / 2 := by omega
      have hval : ∀ k, 0 < k →
          k < (((b :: rest).set 0
            (nth (b :: rest) ((b :: rest).length - 1))).dropLast).length →
          nth (((b :: rest).set 0
            (nth (b :: rest) ((b :: rest).length - 1))).dropLast) k
            = nth (b :: rest) k := by
        intro k hk0 hk
        rw [nth_eq_getElem _ _ hk, List.getElem_dropLast,
          List.getElem_set_ne (by omega : (0 : Nat) ≠ k),
          ← nth_eq_getElem (b :: rest) k (by rw [hlen2] at hk; simp; omega)]
      rw [hval j hj0 hj, hval _ hp0 (by omega)]
      exact hq j (by rw [hlen2] at hj; simp; omega) hj0
    · intro j hj hj0 hpj h0
      exact absurd h0 (Nat.lt_irrefl 0)

/-- C5: popping any non-empty heap-ordered queue returns an element of
minimal weight, removes exactly that element (the rest is a permutation of
the remainder), and leaves the queue heap-ordered again; the sift-down used
is the embedded `heapifyDown` (smaller child chosen, left preferred on ties,
swapping only while a child is strictly smaller). -/
theorem pop_extracts_min (q : List HuffmanNode) (hne : q ≠ []) (hq : isHeap q) :
    ∃ a q', PriorityQueue.pop q = some (a, q') ∧
      (∀ x ∈ q, a.freq ≤ x.freq) ∧ (a :: q').Perm q ∧ isHeap q' := by
  obtain ⟨a, q', hpop, hperm⟩ := pop_perm q hne
  refine ⟨a, q', hpop, ?_, hperm, pop_result_isHeap q hq a q' hpop⟩
  intro x hx
  obtain ⟨k, hk, rfl⟩ := List.mem_iff_getElem.mp hx
  rw [pop_head q a q' hpop, ← nth_eq_getElem q k hk]
  exact isHeap_root_le q hq k hk

/-- Witness for C5 on a concrete two-element heap. -/
theorem pop_extracts_min_witness :
    ∃ a q', PriorityQueue.pop [HuffmanNode.leaf 'a' 1, HuffmanNode.leaf 'b' 2]
        = some (a, q') ∧
      (∀ x ∈ [HuffmanNode.leaf 'a' 1, HuffmanNode.leaf 'b' 2], a.freq ≤ x.freq) ∧
      (a :: q').Perm [HuffmanNode.leaf 'a' 1, HuffmanNode.leaf 'b' 2] ∧
      isHeap q' :=
  pop_extracts_min [HuffmanNode.leaf 'a' 1, HuffmanNode.leaf 'b' 2]
    (by decide) (by decide)

/-! ## Prefix-freeness of generated code tables (C3) -/

/-- Every entry of `mapInsert` is an old entry or the new binding. -/
theorem mem_mapInsert (l : List (Char × Str)) (c : Char) (s : Str) (p : Char × Str)
    (hp : p ∈ mapInsert l c s) : p ∈ l ∨ p = (c, s) := by
  induction l with
  | nil => simpa [mapInsert] using hp
  | cons e rest ih =>
    obtain ⟨c', s'⟩ := e
    by_cases hc : c' = c
    · simp only [mapInsert, if_pos hc] at hp
      rcases List.mem_cons.mp hp with h | h
      · right; rw [h, hc]
      · left; exact List.mem_cons_of_mem _ h
    · simp only [mapInsert, if_neg hc] at hp
      rcases List.mem_cons.mp hp with h | h
      · left; rw [h]; exact List.mem_cons_self _ _
      · rcases ih h with h' | h'
        · left; exact List.mem_cons_of_mem _ h'
        · right; exact h'

/-- Every entry of a fold of `mapInsert`s is an initial entry or one of the
inserted bindings. -/
theorem mem_foldl_mapInsert (entries : List (Char × Str)) : ∀ init p,
    p ∈ entries.foldl (fun cs e => mapInsert cs e.1 e.2) init →
    p ∈ init ∨ p ∈ entries := by
  induction entries with
  | nil => intro init p hp; exact Or.inl hp
  | cons e es ih =>
    intro init p hp
    simp only [List.foldl_cons] at hp
    rcases ih _ p hp with h | h
    · rcases mem_mapInsert init e.1 e.2 p h with h' | h'
      · exact Or.inl h'
      · right; rw [h']; simp
    · exact Or.inr (List.mem_cons_of_mem _ h)

/-- Unfolding `buildCodes` as the fold of its depth-first map writes. -/
theorem buildCodes_eq_foldl (t : HuffmanNode) : ∀ code codes,
    HuffmanTree.buildCodes t code codes =
      (pathsFrom t code).foldl (fun cs p => mapInsert cs p.1 p.2) codes := by
  induction t with
  | leaf c f => intro code codes; rfl
  | internal c f l r ihl ihr =>
    intro code codes
    simp only [HuffmanTree.buildCodes, pathsFrom, List.foldl_append]
    rw [ihl, ihr]

/-- Every recorded path extends the prefix the walk started from. -/
theorem pathsFrom_extends (t : HuffmanNode) : ∀ code p, p ∈ pathsFrom t code →
    ∃ s, p.2 = code ++ s := by
  induction t with
  | leaf c f =>
    intro code p hp
    simp only [pathsFrom, List.mem_singleton] at hp
    exact ⟨[], by rw [hp]; simp⟩
  | internal c f l r ihl ihr =>
    intro code p hp
    simp only [pathsFrom, List.mem_append] at hp
    rcases hp with h | h
    · obtain ⟨s, hs⟩ := ihl _ p h
      exact ⟨'0' :: s, by rw [hs, List.append_assoc]; rfl⟩
    · obtain ⟨s, hs⟩ := ihr _ p h
      exact ⟨'1' :: s, by rw [hs, List.append_assoc]; rfl⟩

/-- The recorded paths of distinct leaves are mutually prefix-incomparable. -/
theorem pathsFrom_pairwise (t : HuffmanNode) : ∀ code,
    List.Pairwise (fun p q : Char × Str => ¬p.2 <+: q.2 ∧ ¬q.2 <+: p.2)
      (pathsFrom t code) := by
  induction t with
  | leaf c f => intro code; simp [pathsFrom]
  | internal c f l r ihl ihr =>
    intro code
    rw [pathsFrom, List.pairwise_append]
    refine ⟨ihl _, ihr _, ?_⟩
    intro a ha b hb
    obtain ⟨sa, hsa⟩ := pathsFrom_extends l _ a ha
    obtain ⟨sb, hsb⟩ := pathsFrom_extends r _ b hb
    have ha2 : a.2 = code ++ '0' :: sa := by rw [hsa, List.append_assoc]; rfl
    have hb2 : b.2 = code ++ '1' :: sb := by rw [hsb, List.append_assoc]; rfl
    constructor
    · intro hpre
      rw [ha2, hb2, List.prefix_append_right_inj, List.cons_prefix_cons] at hpre
      exact absurd hpre.1 (by decide)
    · intro hpre
      rw [hb2, ha2, List.prefix_append_right_inj, List.cons_prefix_cons] at hpre
      exact absurd hpre.1 (by decide)

/-- C3: in any code table generated from a built tree, no code is a proper
prefix of another entry's code (in fact two distinct entries' codes are never
prefix-comparable at all). -/
theorem generateCodes_no_proper_code_prefixes (t : HuffmanNode)
    (p q : Char × Str) (hp : p ∈ HuffmanTree.generateCodes (some t))
    (hq : q ∈ HuffmanTree.generateCodes (some t)) (hne : p ≠ q) :
    ¬(p.2 <+: q.2 ∧ p.2 ≠ q.2) := by
  have hmem : ∀ x, x ∈ HuffmanTree.generateCodes (some t) → x ∈ pathsFrom t [] := by
    intro x hx
    rw [HuffmanTree.generateCodes, buildCodes_eq_foldl] at hx
    rcases mem_foldl_mapInsert _ [] x hx with h | h
    · simp at h
    · exact h
  have hsymm : Symmetric (fun p q : Char × Str => ¬p.2 <+: q.2 ∧ ¬q.2 <+: p.2) :=
    fun a b h => ⟨h.2, h.1⟩
  have h := List.Pairwise.forall hsymm (pathsFrom_pairwise t [])
    (hmem p hp) (hmem q hq) hne
  exact fun hc => h.1 hc.1

/-- Witness for C3 at the two-leaf tree with codes "0" and "1". -/
theorem generateCodes_no_proper_code_prefixes_witness :
    ¬((['0'] : Str) <+: ['1'] ∧ (['0'] : Str) ≠ ['1']) :=
  generateCodes_no_proper_code_prefixes
    (.internal (Char.ofNat 0) 2 (.leaf 'a' 1) (.leaf 'b' 1))
    ('a', ['0']) ('b', ['1']) (by decide) (by decide) (by decide)

/-! ## Symbol-blindness of the priority queue (C6, amended) -/

/-- Step equation: both children beat the parent and the right child beats
the left, so the sift goes right. -/
theorem hd_step_LR (fuel : Nat) (q : List HuffmanNode) (index : Nat)
    (hL : 2 * index + 1 < q.length ∧
      (nth q (2 * index + 1)).freq < (nth q index).freq)
    (hR : 2 * index + 2 < q.length ∧
      (nth q (2 * index + 2)).freq < (nth q (2 * index + 1)).freq) :
    PriorityQueue.heapifyDown (fuel + 1) q index =
      PriorityQueue.heapifyDown fuel (listSwap q index (2 * index + 2))
        (2 * index + 2) := by
  simp only [PriorityQueue.heapifyDown]
  rw [if_pos hL, if_pos hR, if_pos (show 2 * index + 2 ≠ index by omega)]

/-- Step equation: the left child beats the parent and the right child does
not beat the left, so the sift goes left. -/
theorem hd_step_Lr (fuel : Nat) (q : List HuffmanNode) (index : Nat)
    (hL : 2 * index + 1 < q.length ∧
      (nth q (2 * index + 1)).freq < (nth q index).freq)
    (hR : ¬(2 * index + 2 < q.length ∧
      (nth q (2 * index + 2)).freq < (nth q (2 * index + 1)).freq)) :
    PriorityQueue.heapifyDown (fuel + 1) q index =
      PriorityQueue.heapifyDown fuel (listSwap q index (2 * index + 1))
        (2 * index + 1) := by
  simp only [PriorityQueue.heapifyDown]
  rw [if_pos hL, if_neg hR, if_pos (show 2 * index + 1 ≠ index by omega)]

/-- Step equation: only the right child beats the parent, so the sift goes
right. -/
theorem hd_step_lR (fuel : Nat) (q : List HuffmanNode) (index : Nat)
    (hL : ¬(2 * index + 1 < q.length ∧
      (nth q (2 * index + 1)).freq < (nth q index).freq))
    (hR : 2 * index + 2 < q.length ∧
      (nth q (2 * index + 2)).freq < (nth q index).freq) :
    PriorityQueue.heapifyDown (fuel + 1) q index =
      PriorityQueue.heapifyDown fuel (listSwap q index (2 * index + 2))
        (2 * index + 2) := by
  simp only [PriorityQueue.heapifyDown]
  rw [if_neg hL, if_pos hR, if_pos (show 2 * index + 2 ≠ index by omega)]

/-- Step equation: no child beats the parent, so the sift stops. -/
theorem hd_step_lr (fuel : Nat) (q : List HuffmanNode) (index : Nat)
    (hL : ¬(2 * index + 1 < q.length ∧
      (nth q (2 * index + 1)).freq < (nth q index).freq))
    (hR : ¬(2 * index + 2 < q.length ∧
      (nth q (2 * index + 2)).freq < (nth q index).freq)) :
    PriorityQueue.heapifyDown (fuel + 1) q index = q := by
  simp only [PriorityQueue.heapifyDown]
  rw [if_neg hL, if_neg hR, if_neg (show ¬index ≠ index from fun h => h rfl)]

/-- Relabelling keeps weights. -/
theorem freq_mapSym (f : Char → Char) (t : HuffmanNode) :
    (mapSym f t).freq = t.freq := by
  cases t <;> rfl

/-- Relabelling commutes with in-bounds indexing. -/
theorem nth_map (f : Char → Char) (q : List HuffmanNode) (i : Nat)
    (h : i < q.length) :
    nth (q.map (mapSym f)) i = mapSym f (nth q i) := by
  rw [nth_eq_getElem _ _ (by simpa using h), List.getElem_map,
    nth_eq_getElem q i h]

/-- Relabelling commutes with swapping. -/
theorem listSwap_map (f : Char → Char) (q : List HuffmanNode) (i j : Nat)
    (hi : i < q.length) (hj : j < q.length) :
    listSwap (q.map (mapSym f)) i j = (listSwap q i j).map (mapSym f) := by
  rw [listSwap, listSwap, nth_map f q i hi, nth_map f q j hj,
    List.map_set, List.map_set]

/-- Relabelling commutes with the sift-down: every comparison reads only
weights, which relabelling preserves. -/
theorem heapifyDown_map (fuel : Nat) (f : Char → Char) : ∀ q index,
    PriorityQueue.heapifyDown fuel (q.map (mapSym f)) index
      = (PriorityQueue.heapifyDown fuel q index).map (mapSym f) := by
  induction fuel with
  | zero => intro q index; rfl
  | succ fuel ih =>
    intro q index
    have hlen : (q.map (mapSym f)).length = q.length := List.length_map _ _
    have conv : ∀ a b : Nat, a < q.length → b < q.length →
        ((nth (q.map (mapSym f)) a).freq < (nth (q.map (mapSym f)) b).freq ↔
          (nth q a).freq < (nth q b).freq) := by
      intro a b ha hb
      rw [nth_map f q a ha, nth_map f q b hb, freq_mapSym, freq_mapSym]
    have condL : (2 * index + 1 < (q.map (mapSym f)).length ∧
        (nth (q.map (mapSym f)) (2 * index + 1)).freq <
          (nth (q.map (mapSym f)) index).freq) ↔
        (2 * index + 1 < q.length ∧
          (nth q (2 * index + 1)).freq < (nth q index).freq) := by
      rw [hlen]
      constructor
      · rintro ⟨h1, h2⟩; exact ⟨h1, (conv _ _ h1 (by omega)).mp h2⟩
      · rintro ⟨h1, h2⟩; exact ⟨h1, (conv _ _ h1 (by omega)).mpr h2⟩
    have condR1 : (2 * index + 2 < (q.map (mapSym f)).length ∧
        (nth (q.map (mapSym f)) (2 * index + 2)).freq <
          (nth (q.map (mapSym f)) (2 * index + 1)).freq) ↔
        (2 * index + 2 < q.length ∧
          (nth q (2 * index + 2)).freq < (nth q (2 * index + 1)).freq) := by
      rw [hlen]
      constructor
      · rintro ⟨h1, h2⟩; exact ⟨h1, (conv _ _ h1 (by omega)).mp h2⟩
      · rintro ⟨h1, h2⟩; exact ⟨h1, (conv _ _ h1 (by omega)).mpr h2⟩
    have condR2 : (2 * index + 2 < (q.map (mapSym f)).length ∧
        (nth (q.map (mapSym f)) (2 * index + 2)).freq <
          (nth (q.map (mapSym f)) index).freq) ↔
        (2 * index + 2 < q.length ∧
          (nth q (2 * index + 2)).freq < (nth q index).freq) := by
      rw [hlen]
      constructor
      · rintro ⟨h1, h2⟩; exact ⟨h1, (conv _ _ h1 (by omega)).mp h2⟩
      · rintro ⟨h1, h2⟩; exact ⟨h1, (conv _ _ h1 (by omega)).mpr h2⟩
    by_cases hL : 2 * index + 1 < q.length ∧
        (nth q (2 * index + 1)).freq < (nth q index).freq
    · have hidx : index < q.length := by omega
      by_cases hR : 2 * index + 2 < q.length ∧
          (nth q (2 * index + 2)).freq < (nth q (2 * index + 1)).freq
      · rw [hd_step_LR fuel _ index (condL.mpr hL) (condR1.mpr hR),
          hd_step_LR fuel q index hL hR,
          listSwap_map f q index (2 * index + 2) hidx hR.1]
        exact ih _ _
      · rw [hd_step_Lr fuel _ index (condL.mpr hL)
            (fun hc => hR (condR1.mp hc)),
          hd_step_Lr fuel q index hL hR,
          listSwap_map f q index (2 * index + 1) hidx hL.1]
        exact ih _ _
    · by_cases hR : 2 * index + 2 < q.length ∧
          (nth q (2 * index + 2)).freq < (nth q index).freq
      · have hidx : index < q.length := by omega
        rw [hd_step_lR fuel _ index (fun hc => hL (condL.mp hc))
            (condR2.mpr hR),
          hd_step_lR fuel q index hL hR,
          listSwap_map f q index (2 * index + 2) hidx hR.1]
        exact ih _ _
      · rw [hd_step_lr fuel _ index (fun hc => hL (condL.mp hc))
            (fun hc => hR (condR2.mp hc)),
          hd_step_lr fuel q index hL hR]

/-- Relabelling commutes with the sift-up. -/
theorem heapifyUp_map (fuel : Nat) (f : Char → Char) : ∀ q index,
    index < q.length →
    PriorityQueue.heapifyUp fuel (q.map (mapSym f)) index
      = (PriorityQueue.heapifyUp fuel q index).map (mapSym f) := by
  induction fuel with
  | zero => intro q index _; rfl
  | succ fuel ih =>
    intro q index hidx
    by_cases hpos : 0 < index
    · have hpar : (index - 1) / 2 < q.length := by omega
      by_cases hlt : (nth q index).freq < (nth q ((index - 1) / 2)).freq
      · have hlt' : (nth (q.map (mapSym f)) index).freq <
            (nth (q.map (mapSym f)) ((index - 1) / 2)).freq := by
          rw [nth_map f q index hidx, nth_map f q _ hpar, freq_mapSym,
            freq_mapSym]
          exact hlt
        rw [heapifyUp_succ_swap fuel _ index hpos hlt',
          heapifyUp_succ_swap fuel q index hpos hlt,
          listSwap_map f q index ((index - 1) / 2) hidx hpar]
        exact ih _ _ (by rw [listSwap_length]; omega)
      · have hlt' : ¬(nth (q.map (mapSym f)) index).freq <
            (nth (q.map (mapSym f)) ((index - 1) / 2)).freq := by
          rw [nth_map f q index hidx, nth_map f q _ hpar, freq_mapSym,
            freq_mapSym]
          exact hlt
        rw [heapifyUp_succ_stop fuel _ index (Or.inr hlt'),
          heapifyUp_succ_stop fuel q index (Or.inr hlt)]
    · rw [heapifyUp_succ_stop fuel _ index (Or.inl hpos),
        heapifyUp_succ_stop fuel q index (Or.inl hpos)]

/-- Relabelling commutes with `push`. -/
theorem push_map (f : Char → Char) (q : List HuffmanNode) (n : HuffmanNode) :
    PriorityQueue.push (q.map (mapSym f)) (mapSym f n)
      = (PriorityQueue.push q n).map (mapSym f) := by
  rw [PriorityQueue.push, PriorityQueue.push]
  have hm : q.map (mapSym f) ++ [mapSym f n] = (q ++ [n]).map (mapSym f) := by
    simp
  rw [hm]
  have hl1 : (q.map (mapSym f)).length + 1 = q.length + 1 := by simp
  have hl2 : ((q ++ [n]).map (mapSym f)).length - 1 = (q ++ [n]).length - 1 := by
    simp
  rw [hl1, hl2]
  exact heapifyUp_map _ f (q ++ [n]) _ (by simp)

/-- Relabelling commutes with `pop`. -/
theorem pop_map (f : Char → Char) (q : List HuffmanNode) :
    PriorityQueue.pop (q.map (mapSym f))
      = (PriorityQueue.pop q).map
          (fun p => (mapSym f p.1, p.2.map (mapSym f))) := by
  match q with
  | [] => rfl
  | b :: rest =>
    have hcons : (b :: rest).map (mapSym f)
        = mapSym f b :: rest.map (mapSym f) := rfl
    have hq'' : ((mapSym f b :: rest.map (mapSym f)).set 0
        (nth (mapSym f b :: rest.map (mapSym f))
          ((mapSym f b :: rest.map (mapSym f)).length - 1))).dropLast
        = (((b :: rest).set 0
            (nth (b :: rest) ((b :: rest).length - 1))).dropLast).map
          (mapSym f) := by
      rw [← hcons]
      have hlen : ((b :: rest).map (mapSym f)).length - 1
          = (b :: rest).length - 1 := by simp
      rw [hlen, nth_map f (b :: rest) _ (by simp), ← List.map_set,
        ← List.map_dropLast]
    show some (mapSym f b, PriorityQueue.heapifyDown _ _ 0) = _
    rw [hq'']
    have hlen2 : ((((b :: rest).set 0
        (nth (b :: rest) ((b :: rest).length - 1))).dropLast).map
          (mapSym f)).length
        = (((b :: rest).set 0
            (nth (b :: rest) ((b :: rest).length - 1))).dropLast).length := by
      simp
    rw [hlen2, heapifyDown_map _ f _ 0]
    rfl

/-- Relabelling commutes with draining the queue. -/
theorem popAllGo_map (fuel : Nat) (f : Char → Char) : ∀ q,
    popAllGo fuel (q.map (mapSym f)) = (popAllGo fuel q).map (mapSym f) := by
  induction fuel with
  | zero => intro q; rfl
  | succ fuel ih =>
    intro q
    cases hpop : PriorityQueue.pop q with
    | none => simp [popAllGo, pop_map, hpop]
    | some p =>
      obtain ⟨a, q'⟩ := p
      simp [popAllGo, pop_map, hpop, ih q']

/-- Relabelling commutes with `popAll`. -/
theorem popAll_map (f : Char → Char) (q : List HuffmanNode) :
    popAll (q.map (mapSym f)) = (popAll q).map (mapSym f) := by
  rw [popAll, popAll, List.length_map, popAllGo_map]

/-- Relabelling commutes with `pushAll`. -/
theorem pushAll_map (f : Char → Char) (l : List HuffmanNode) :
    pushAll (l.map (mapSym f)) = (pushAll l).map (mapSym f) := by
  have haux : ∀ (l2 : List HuffmanNode) (acc : List HuffmanNode),
      (l2.map (mapSym f)).foldl PriorityQueue.push (acc.map (mapSym f))
        = (l2.foldl PriorityQueue.push acc).map (mapSym f) := by
    intro l2
    induction l2 with
    | nil => intro acc; rfl
    | cons n l2' ih =>
      intro acc
      simp only [List.map_cons, List.foldl_cons]
      rw [push_map]
      exact ih (PriorityQueue.push acc n)
  have := haux l []
  simpa [pushAll] using this

/-- C6 (amended): the extraction order produced by draining a queue built by
successive pushes is blind to symbol identity: relabelling every symbol (and
nothing else) before the run relabels the output pointwise and changes
nothing else about the order.  Tie-breaking among equal weights therefore
depends only on the heap layout generated by the insertion sequence, never on
the symbols (and, by the three-equal-weights run, it is not FIFO). -/
theorem popAll_pushAll_symbol_blind (f : Char → Char) (l : List HuffmanNode) :
    popAll (pushAll (l.map (mapSym f))) = (popAll (pushAll l)).map (mapSym f) := by
  rw [pushAll_map, popAll_map]

/-! ## Decode totality (C7, amended) and encode output (C9, amended) -/

/-- Walking from an internal root, `decodeGo` always succeeds: a partial
codeword path at end of input is discarded and the output so far returned. -/
theorem decodeGo_internal_some (c0 : Char) (w0 : Nat) (l0 r0 : HuffmanNode) :
    ∀ (bits : Str) (cur : HuffmanNode),
      (∃ c w l r, cur = HuffmanNode.internal c w l r) →
      ∃ s, HuffmanTree.decodeGo (.internal c0 w0 l0 r0) cur bits = some s := by
  intro bits
  induction bits with
  | nil => intro cur _; exact ⟨[], rfl⟩
  | cons bit rest ih =>
    intro cur hcur
    obtain ⟨c, w, l, r, rfl⟩ := hcur
    rcases hn : (if bit = '0' then l else r) with ⟨cc, ww⟩ | ⟨c2, w2, l2, r2⟩
    · obtain ⟨s, hs⟩ := ih (.internal c0 w0 l0 r0) ⟨c0, w0, l0, r0, rfl⟩
      refine ⟨cc :: s, ?_⟩
      simp only [HuffmanTree.decodeGo, hn, hs]
      rfl
    · obtain ⟨s, hs⟩ := ih (.internal c2 w2 l2 r2) ⟨c2, w2, l2, r2, rfl⟩
      refine ⟨s, ?_⟩
      simp only [HuffmanTree.decodeGo, hn]
      exact hs

/-- C7 (amended): `decode` against a tree whose root is an internal node
never fails, whatever the bit-string — corrupt streams included.  There is no
IncompleteCodeword (or InvalidBit) detection: a trailing incomplete codeword is
silently dropped, and a trailing '0' landing on a leaf even emits a spurious
extra symbol. -/
theorem decode_internal_root_total (c : Char) (w : Nat) (l r : HuffmanNode)
    (bits : Str) :
    ∃ s, HuffmanTree.decode (some (.internal c w l r)) bits = some s :=
  decodeGo_internal_some c w l r bits _ ⟨c, w, l, r, rfl⟩

/-- A successful lookup comes from an entry of the list. -/
theorem mapFind_mem (l : List (Char × Str)) (c : Char) (s : Str)
    (h : mapFind l c = some s) : (c, s) ∈ l := by
  induction l with
  | nil => simp [mapFind] at h
  | cons e rest ih =>
    obtain ⟨c', s'⟩ := e
    by_cases hc : c' = c
    · simp only [mapFind, if_pos hc] at h
      obtain rfl : s' = s := Option.some.inj h
      rw [← hc]
      exact List.mem_cons_self _ _
    · simp only [mapFind, if_neg hc] at h
      exact List.mem_cons_of_mem _ (ih h)

/-- Lookup in an appended map: first table wins. -/
theorem mapFind_append (l1 l2 : List (Char × Str)) (c : Char) :
    mapFind (l1 ++ l2) c =
      match mapFind l1 c with
      | some s => some s
      | none => mapFind l2 c := by
  induction l1 with
  | nil => rfl
  | cons e rest ih =>
    obtain ⟨c', s'⟩ := e
    by_cases hc : c' = c
    · simp [mapFind, hc]
    · simp [mapFind, hc, ih]

/-- The encoding fold, run over the original table extended by any number of
empty-code insertions, appends exactly the present symbols' codes. -/
theorem encodeString_foldl_spec (input : Str) : ∀ (codes ext : List (Char × Str))
    (out : Str), (∀ p ∈ ext, p.2 = ([] : Str)) →
    (input.foldl (fun acc c =>
      let r := mapIndex acc.2 c
      (acc.1 ++ r.1, r.2)) (out, codes ++ ext)).1
      = out ++ expectedEncode codes input := by
  induction input with
  | nil => intro codes ext out hext; simp [expectedEncode]
  | cons ch rest ih =>
    intro codes ext out hext
    simp only [List.foldl_cons]
    rcases hfc : mapFind codes ch with _ | s
    · rcases hfe : mapFind ext ch with _ | v
      · have hstep : mapIndex (codes ++ ext) ch
            = ([], codes ++ (ext ++ [(ch, [])])) := by
          rw [mapIndex, mapFind_append, hfc, hfe]
          simp [List.append_assoc]
        rw [hstep]
        have hext' : ∀ p ∈ ext ++ [(ch, [])], p.2 = ([] : Str) := by
          intro p hp
          rcases List.mem_append.mp hp with h | h
          · exact hext p h
          · simp at h; rw [h]
        have := ih codes (ext ++ [(ch, [])]) (out ++ []) hext'
        rw [this]
        simp [expectedEncode, hfc]
      · have hv : v = [] := hext (ch, v) (mapFind_mem ext ch v hfe)
        have hstep : mapIndex (codes ++ ext) ch = (v, codes ++ ext) := by
          rw [mapIndex, mapFind_append, hfc, hfe]
        rw [hstep]
        have := ih codes ext (out ++ v) hext
        rw [this]
        simp [expectedEncode, hfc, hv]
    · have hstep : mapIndex (codes ++ ext) ch = (s, codes ++ ext) := by
        rw [mapIndex, mapFind_append, hfc]
      rw [hstep]
      have := ih codes ext (out ++ s) hext
      rw [this]
      simp [expectedEncode, hfc]

/-- C9 (amended): `encode` never fails; its output is exactly the
concatenation, in input order, of the codes of the input symbols present in
the original table — a symbol absent from the table contributes nothing (the
C++ `operator[]` silently default-inserts an empty code for it). -/
theorem encode_concatenates_present_codes (input : Str)
    (codes : List (Char × Str)) :
    (HuffmanTree.encode input codes).1 = expectedEncode codes input := by
  have := encodeString_foldl_spec input codes [] [] (by simp)
  simpa [HuffmanTree.encode, HuffmanTree.encodeString] using this
